import Mathlib

/-!
Verification of the GPX splitter (`src/script.js`).

The splitter parses a GPX (XML) file, collects all `rtept` elements in
document order (`doc.getElementsByTagName("rtept")`, line 25), slices them
into chunks of `pointsPerFile` (lines 33-36), and for each chunk re-parses
the original text, renames the first `name` element, rebuilds the first
`rte` element from the chunk, and writes the result (lines 50-123).

The XML tree is embedded as a nested inductive; DOM operations used by the
script (`getElementsByTagName`, `textContent` read/write, `appendChild`,
`removeChild`, `cloneNode`) become pure tree transformations.  DOM's
`getElementsByTagName` returns descendants in document (pre-)order: on a
Document it includes the root element, on an Element it excludes the
element itself.
-/

inductive Xml where
  | text (s : String)
  | elem (tag : String) (attrs : List (String × String)) (children : List Xml)

/-- Tag of an element (`""` for a text node). -/
def Xml.tagD : Xml → String
  | .text _ => ""
  | .elem t _ _ => t

/-- Attribute list of an element. -/
def Xml.attrsD : Xml → List (String × String)
  | .text _ => []
  | .elem _ a _ => a

/-- Child list of an element. -/
def Xml.childrenD : Xml → List Xml
  | .text _ => []
  | .elem _ _ cs => cs

/-- Whether a node is an element node. -/
def Xml.isElem : Xml → Bool
  | .text _ => false
  | .elem _ _ _ => true

mutual
/-- Concatenated text content of a subtree: reading `node.textContent`. -/
def Xml.innerText : Xml → String
  | .text s => s
  | .elem _ _ cs => innerTextList cs

def innerTextList : List Xml → String
  | [] => ""
  | c :: cs => Xml.innerText c ++ innerTextList cs
end

/-- Writing `node.textContent = s`: all children are replaced by one text
node (script lines 56, 62, 81, 93). -/
def Xml.setText (s : String) : Xml → Xml
  | .text _ => .text s
  | .elem t a _ => .elem t a [.text s]

mutual
/-- First element with the given tag in the subtree rooted at `x`, in
document (pre-)order, `x` itself included: `document.getElementsByTagName(tag)[0]`. -/
def Xml.firstTag (tag : String) : Xml → Option Xml
  | .text _ => none
  | .elem t a cs => if t = tag then some (.elem t a cs) else firstTagList tag cs

/-- First element with the given tag inside a forest, in document order.
Applied to `e.childrenD` it models `e.getElementsByTagName(tag)[0]`
(an Element search excludes the element itself). -/
def firstTagList (tag : String) : List Xml → Option Xml
  | [] => none
  | c :: cs =>
    match Xml.firstTag tag c with
    | some r => some r
    | none => firstTagList tag cs
end

mutual
/-- Rewrite the first element with the given tag (document order) by `f`;
`none` when no such element exists.  This is how an in-place mutation of
the node returned by `getElementsByTagName(tag)[0]` acts on the tree. -/
def Xml.setFirstTag (tag : String) (f : Xml → Xml) : Xml → Option Xml
  | .text _ => none
  | .elem t a cs =>
    if t = tag then some (f (.elem t a cs))
    else (setFirstTagList tag f cs).map (fun cs2 => .elem t a cs2)

def setFirstTagList (tag : String) (f : Xml → Xml) : List Xml → Option (List Xml)
  | [] => none
  | c :: cs =>
    match Xml.setFirstTag tag f c with
    | some c2 => some (c2 :: cs)
    | none => (setFirstTagList tag f cs).map (fun cs2 => c :: cs2)
end

mutual
/-- All elements with the given tag in the subtree, in document order:
`doc.getElementsByTagName(tag)` (script line 25 with tag `rtept`). -/
def Xml.allTags (tag : String) : Xml → List Xml
  | .text _ => []
  | .elem t a cs => (if t = tag then [Xml.elem t a cs] else []) ++ allTagsList tag cs

def allTagsList (tag : String) : List Xml → List Xml
  | [] => []
  | c :: cs => Xml.allTags tag c ++ allTagsList tag cs
end

/-- First direct child with the given tag (used only to read back outputs:
"the `name` child of `rte`", "the `type` child of a point"). -/
def firstChildTag (tag : String) (x : Xml) : Option Xml :=
  x.childrenD.find? (fun c => c.tagD == tag)

/-- Chunking loop, lines 33-36: `for (i = 0; i < n; i += P) chunks.push(pts.slice(i, i+P))`.
Structured recursively; for `P ≥ 1` each step takes `P` elements
(`(a :: l).take P = a :: l.take (P-1)`) and drops them. -/
def mkChunks (P : Nat) : List α → List (List α)
  | [] => []
  | a :: l => (a :: l.take (P - 1)) :: mkChunks P (l.drop (P - 1))
termination_by l => l.length
decreasing_by simp [List.length_drop]; omega

/-- The part name written into `name` elements, lines 56 and 62:
`` `${baseName} (Part ${index + 1})` ``. -/
def partName (b : String) (k : Nat) : String :=
  b ++ " (Part " ++ toString k ++ ")"

/-- Output file name, line 118: `` `${baseName}_split_${index + 1}.gpx` ``. -/
def outFileName (b : String) (k : Nat) : String :=
  b ++ "_split_" ++ toString k ++ ".gpx"

/-- Lines 79-98 (both branches have the same shape): set the text of the
first `type` descendant of the point if one exists, otherwise create a
`<type>` child with the given text and append it. -/
def Xml.annotateType (s : String) : Xml → Xml
  | .text str => .text str
  | .elem t a cs =>
    match setFirstTagList "type" (Xml.setText s) cs with
    | some cs2 => .elem t a cs2
    | none => .elem t a (cs ++ [Xml.elem "type" [] [.text s]])

/-- Loop body lines 76-102 for the point at position `j` of a chunk of
length `len`: the `start` branch runs first (j = 0), the `destination`
branch second (j = len - 1), so on a single-point chunk `destination`
is applied after `start`. -/
def annotatePoint (len j : Nat) (p : Xml) : Xml :=
  if j = len - 1 then
    Xml.annotateType "destination" (if j = 0 then Xml.annotateType "start" p else p)
  else if j = 0 then Xml.annotateType "start" p else p

def annotateChunkAux (len : Nat) : Nat → List Xml → List Xml
  | _, [] => []
  | j, p :: ps => annotatePoint len j p :: annotateChunkAux len (j + 1) ps

/-- The chunk's points as they are appended to the rebuilt `rte`. -/
def annotateChunk (c : List Xml) : List Xml :=
  annotateChunkAux c.length 0 c

/-- Lines 54-57 on the fresh parse `newDoc`: the first `name` element of the
whole document (if any) gets the part name as text.  (The script calls this
element `metadataName`, but `getElementsByTagName` searches the whole
document, not `metadata`.) -/
def metaRenamed (tree : Xml) (b : String) (k : Nat) : Xml :=
  (Xml.setFirstTag "name" (Xml.setText (partName b k)) tree).getD tree

/-- The rebuilt `rte` for chunk `k` (lines 59-102): locate the first `rte`
of the renamed document; rename its first `name` descendant (line 62) whose
renamed clone is re-appended first (line 72); clear all children
(lines 66-68) and append the annotated chunk points (line 101).
`none` when the document has no `rte` (line 60 throws). -/
def rebuiltRte (tree : Xml) (b : String) (k : Nat) (chunk : List Xml) : Option Xml :=
  (Xml.firstTag "rte" (metaRenamed tree b k)).map (fun rte =>
    let nameClone : List Xml :=
      match firstTagList "name" rte.childrenD with
      | some n => [Xml.setText (partName b k) n]
      | none => []
    Xml.elem rte.tagD rte.attrsD (nameClone ++ annotateChunk chunk))

/-- Output document for chunk `k` (1-based), lines 50-106: a fresh parse of
the original text with its first `rte` replaced by the rebuilt route.
`none` when the document has no `rte`: the iteration throws before writing. -/
def buildChunkDoc (tree : Xml) (b : String) (k : Nat) (chunk : List Xml) : Option Xml :=
  match rebuiltRte tree b k chunk with
  | none => none
  | some nr => Xml.setFirstTag "rte" (fun _ => nr) (metaRenamed tree b k)

/-- Observable outcome of `splitGpx` for one input file: whether the output
subdirectory was created (lines 42-44), the files written (line 121) and
whether the per-chunk loop aborted with an error. -/
structure SplitResult where
  dirCreated : Bool
  files : List (String × Xml)
  errored : Bool

/-- The write loop (lines 50-123): files are written chunk by chunk; a
failing iteration aborts the rest of this file's chunks. -/
def writeLoop (tree : Xml) (b : String) : Nat → List (List Xml) → List (String × Xml) × Bool
  | _, [] => ([], false)
  | k, c :: cs =>
    match buildChunkDoc tree b k c with
    | none => ([], true)
    | some d =>
      let r := writeLoop tree b (k + 1) cs
      ((outFileName b k, d) :: r.1, r.2)

/-- Model of `splitGpx` (lines 14-126) for an already-parsed document: with no
`rtept` anywhere in the document it logs and returns before creating the
output subdirectory (lines 27-30 precede lines 42-44); otherwise the
subdirectory is created and the chunks are written. -/
def splitGpxModel (tree : Xml) (b : String) (P : Nat) : SplitResult :=
  let pts := Xml.allTags "rtept" tree
  if pts.isEmpty then ⟨false, [], false⟩
  else
    let r := writeLoop tree b 1 (mkChunks P pts)
    ⟨true, r.1, r.2⟩

/-- Per-chunk outputs computed independently, each from the pristine parsed
document (`k` is the 0-based chunk position here; the part number is `k+1`). -/
def chunkDocsGo (tree : Xml) (b : String) : Nat → List (List Xml) → List (Option Xml)
  | _, [] => []
  | k, c :: cs => buildChunkDoc tree b (k + 1) c :: chunkDocsGo tree b (k + 1) cs

/-- Sequential chunk processing with the shared point store threaded
through, as the script actually runs: the `rtept` nodes extracted at
line 25 belong to the one original parse, the chunks are slices of that
node list, and the type annotations of lines 76-99 mutate those shared
nodes in place.  `store` holds the current subtree value of every original
route point; processing chunk `k` (0-based) reads its slice
`store[k*P .. k*P+P)`, writes the annotated values back, and builds its
output from the values it read. -/
def seqProcess (tree : Xml) (b : String) (P : Nat) : Nat → Nat → List Xml → List (Option Xml)
  | _, 0, _ => []
  | k, n + 1, store =>
    let c := (store.drop (k * P)).take P
    let store2 := store.take (k * P) ++ annotateChunk c ++ store.drop (k * P + c.length)
    buildChunkDoc tree b (k + 1) c :: seqProcess tree b P (k + 1) n store2

/-- One test of the chunking loop's guard (line 34): running at index `i`
continues (with `i` advanced by exactly `pointsPerFile`) while
`i < routePoints.length`.  The index is an integer to cover the claim's
`pointsPerFile ≤ 0` case. -/
def loopNext (N : Nat) (P : Int) (i : Int) : Option Int :=
  if i < (N : Int) then some (i + P) else none

/-- Whether the chunking loop, started at index `i`, exits within `fuel`
guard tests. -/
def loopExitsWithin (N : Nat) (P : Int) : Nat → Int → Bool
  | 0, i => decide ¬(i < (N : Int))
  | k + 1, i => if i < (N : Int) then loopExitsWithin N P k (i + P) else true

/-- The chunking loop of lines 33-36 run literally with a step budget:
each iteration pushes `pts.slice(i, i + P)` and advances `i` by `P`;
`none` when the budget is exhausted before the guard fails. -/
def splitLoopRun (pts : List α) (P : Nat) : Nat → Nat → List (List α) → Option (List (List α))
  | 0, _, _ => none
  | fuel + 1, i, acc =>
    if i < pts.length then
      splitLoopRun pts P fuel (i + P) (acc ++ [(pts.drop i).take P])
    else some acc

/-!
Event model of the orchestration (`processGpxFiles`, lines 129-144, and the
main IIFE, lines 163-167) under JavaScript promise semantics.

`splitGpx` is an async function: it runs synchronously from its call until
the first `await` (the dynamic plugin import at line 47) and its remainder
runs as queued continuations, one segment per `await` (the `prettier.format`
of each chunk, line 109).  The map callback at lines 139-141 has a block
body with no `return`, so `Promise.all` receives `undefined` for every
file and does not wait for any `splitGpx` promise.

Awaited promises are modelled as resolving after one scheduler tick, and
the microtask queue as FIFO: a task is a list of segments; the scheduler
emits a task's next segment and re-queues the rest at the back.  The
top-level `await clearDirectory(outputDir)` (lines 163-167) fully
sequences the directory reset before `processGpxFiles` is called, so the
whole trace starts with the reset event.  A task that throws
(missing `rte`, line 60) loses only its own remaining segments.
-/

inductive Ev where
  | dirCleared
  | procStart (f : Nat)
  | fileSaved (f : Nat) (k : Nat)
  | procFinish (f : Nat)
  | procError (f : Nat)
  | allDone
deriving DecidableEq, Repr

/-- Post-`await` segments of a successfully-splitting file: chunk `k`'s
document is built and formatted in one segment and written at the start of
the next; the final segment also logs the per-file completion (line 125). -/
def savedSegs (i : Nat) : Nat → Nat → List (List Ev)
  | _, 0 => []
  | k, 1 => [[Ev.fileSaved i k, Ev.procFinish i]]
  | k, n + 2 => [Ev.fileSaved i k] :: savedSegs i (k + 1) (n + 1)

/-- The queued continuation of `splitGpx` for a file with at least one
route point: if the document has no `rte`, the first iteration throws at
line 60 before writing anything; otherwise one leading build-only segment
(first `prettier.format`) is followed by the write segments. -/
def contSegments (i : Nat) (tree : Xml) (b : String) (P : Nat) : List (List Ev) :=
  let chunks := mkChunks P (Xml.allTags "rtept" tree)
  match chunks with
  | [] => []
  | c :: _ =>
    if (buildChunkDoc tree b 1 c).isSome then [] :: savedSegs i 1 chunks.length
    else [[Ev.procError i]]

/-- Synchronous prefix of `splitGpx` for file `i`: the processing log
(line 15), and — unless the file has no route points, in which case it
returns at line 29 before the first `await` — a queued continuation task. -/
def splitTask (i : Nat) (tree : Xml) (b : String) (P : Nat) :
    List Ev × List (List (List Ev)) :=
  if (Xml.allTags "rtept" tree).isEmpty then ([Ev.procStart i], [])
  else ([Ev.procStart i], [contSegments i tree b P])

/-- The synchronous phase of `gpxFiles.map(...)` at line 139: every file's
`splitGpx` is started in order; tasks queue in start order. -/
def startAll (b : String) (P : Nat) : Nat → List Xml → List Ev × List (List (List Ev))
  | _, [] => ([], [])
  | i, t :: ts =>
    let r := splitTask i t b P
    let r2 := startAll b P (i + 1) ts
    (r.1 ++ r2.1, r.2 ++ r2.2)

/-- FIFO microtask scheduler: run the front task's next segment and re-queue
its remainder at the back. -/
def runQueue : List (List (List Ev)) → List Ev
  | [] => []
  | [] :: q => runQueue q
  | (seg :: rest) :: q =>
    match rest with
    | [] => seg ++ runQueue q
    | r :: rs => seg ++ runQueue (q ++ [r :: rs])
termination_by q => (q.map List.length).sum + q.length
decreasing_by
  all_goals simp [List.sum_append]
  all_goals omega

/-- Model of `processGpxFiles` (lines 129-144): with no input files it logs and
returns (line 134) without the final message; otherwise all `splitGpx`
calls start synchronously, the continuation of `await Promise.all([...])`
— which awaits only the `undefined`s returned by the map callback — queues
the final "All GPX files processed." log behind the already-queued file
tasks, and the scheduler runs everything. -/
def processTrace (files : List Xml) (b : String) (P : Nat) : List Ev :=
  if files.isEmpty then []
  else
    let r := startAll b P 0 files
    r.1 ++ runQueue (r.2 ++ [[[Ev.allDone]]])

/-- The main IIFE (lines 163-167): `clearDirectory` is awaited to
completion before `processGpxFiles` starts. -/
def mainTrace (files : List Xml) (b : String) (P : Nat) : List Ev :=
  Ev.dirCleared :: processTrace files b P

/-! Concrete documents used to instantiate the theorems. -/

/-- A plain route point. -/
def pt (lat : String) : Xml := Xml.elem "rtept" [("lat", lat)] []

/-- A well-formed sample: metadata name, route name, three route points. -/
def sampleTree : Xml :=
  Xml.elem "gpx" []
    [Xml.elem "metadata" [] [Xml.elem "name" [] [Xml.text "Trip"]],
     Xml.elem "rte" []
       [Xml.elem "name" [] [Xml.text "Trip"], pt "1", pt "2", pt "3"]]

/-- A document with route points but no `rte` element: line 60 throws. -/
def noRteTree : Xml := Xml.elem "gpx" [] [pt "9"]

/-- A minimal document producing exactly one chunk and one output file. -/
def oneChunkTree : Xml := Xml.elem "gpx" [] [Xml.elem "rte" [] [pt "1"]]

/-- A document with no route points at all. -/
def noPtsTree : Xml := Xml.elem "gpx" [] [Xml.elem "trk" [] []]

/-- A route point whose only `type` element is nested inside `extensions`
(its first `type` descendant is not a direct child). -/
def nestedTypePt : Xml :=
  Xml.elem "rtept" [("lat", "5")]
    [Xml.elem "extensions" [] [Xml.elem "type" [] [Xml.text "x"]]]

/-- Input whose first chunk starts with `nestedTypePt`. -/
def nestedTypeTree : Xml :=
  Xml.elem "gpx" [] [Xml.elem "rte" [] [nestedTypePt, pt "6"]]

/-- A route point with a direct `type` child (text `y`) preceded in document
order by a `type` element nested in `extensions` (text `x`). -/
def shadowedTypePt : Xml :=
  Xml.elem "rtept" []
    [Xml.elem "extensions" [] [Xml.elem "type" [] [Xml.text "x"]],
     Xml.elem "type" [] [Xml.text "y"]]

/-- A document that has a `metadata/name` element (text `M`) which is not
the first `name` element in document order: `metadata/author/name` (text
`A`) precedes it. -/
def authorNameTree : Xml :=
  Xml.elem "gpx" []
    [Xml.elem "metadata" []
       [Xml.elem "author" [] [Xml.elem "name" [] [Xml.text "A"]],
        Xml.elem "name" [] [Xml.text "M"]],
     Xml.elem "rte" [] [Xml.elem "name" [] [Xml.text "R"], pt "7"]]

/-- The document family of the spec's data model used in the amended C4:
root, `metadata` first with its `name` as first child, anything after. -/
def gpxDoc (ga ma na : List (String × String)) (s : String)
    (mrest rest : List Xml) : Xml :=
  Xml.elem "gpx" ga
    (Xml.elem "metadata" ma (Xml.elem "name" na [Xml.text s] :: mrest) :: rest)

/-- Texts of the direct `type` children of a point. -/
def typeChildTexts (p : Xml) : List String :=
  (p.childrenD.filter (fun c => c.tagD == "type")).map Xml.innerText

/-- Number of direct children with a given tag. -/
def countTagChildren (tag : String) (x : Xml) : Nat :=
  (x.childrenD.map Xml.tagD).count tag

/-- Text of the first `type` descendant of a point (document order). -/
def firstTypeText (p : Xml) : Option String :=
  (firstTagList "type" p.childrenD).map Xml.innerText

/-- Text of the `metadata/name` element: first `metadata` of the document,
then its first direct `name` child. -/
def metadataNameText (d : Xml) : Option String :=
  (Xml.firstTag "metadata" d).bind (fun m => (firstChildTag "name" m).map Xml.innerText)

/-- Text of the `name` child of the document's first `rte` element. -/
def rteNameText (d : Xml) : Option String :=
  (Xml.firstTag "rte" d).bind (fun r => (firstChildTag "name" r).map Xml.innerText)

/-! Lemmas about the chunking loop. -/

theorem mkChunks_eq_nil_iff (P : Nat) (l : List α) : mkChunks P l = [] ↔ l = [] := by
  cases l <;> simp [mkChunks]

theorem mkChunks_cons_eq (P : Nat) (hP : 1 ≤ P) (a : α) (l : List α) :
    mkChunks P (a :: l) = (a :: l).take P :: mkChunks P ((a :: l).drop P) := by
  cases P with
  | zero => omega
  | succ p => simp [mkChunks, List.take_succ_cons, List.drop_succ_cons]

theorem mkChunks_join (P : Nat) (l : List α) : (mkChunks P l).flatten = l := by
  induction l using mkChunks.induct P with
  | case1 => simp [mkChunks]
  | case2 a l ih => simp [mkChunks, ih]

theorem mkChunks_length (P : Nat) (hP : 1 ≤ P) (l : List α) :
    (mkChunks P l).length = (l.length + P - 1) / P := by
  induction l using mkChunks.induct P with
  | case1 =>
    simp [mkChunks]
    rw [Nat.div_eq_of_lt (by omega)]
  | case2 a l ih =>
    simp only [mkChunks, List.length_cons, ih]
    have h2 : l.length + 1 + P - 1 = l.length + P := by omega
    rw [h2, Nat.add_div_right _ (by omega)]
    rcases le_or_lt (P - 1) l.length with hc | hc
    · have h3 : l.length - (P - 1) + P - 1 = l.length := by omega
      rw [List.length_drop, h3]
    · have h3 : l.length - (P - 1) = 0 := by omega
      rw [List.length_drop, h3]
      rw [Nat.div_eq_of_lt (by omega), Nat.div_eq_of_lt (by omega)]

theorem mkChunks_mem_length (P : Nat) (hP : 1 ≤ P) (l : List α) (c : List α)
    (hc : c ∈ mkChunks P l) : 1 ≤ c.length ∧ c.length ≤ P := by
  induction l using mkChunks.induct P with
  | case1 => simp [mkChunks] at hc
  | case2 a l ih =>
    simp only [mkChunks, List.mem_cons] at hc
    rcases hc with hc | hc
    · subst hc
      simp [List.length_take]
      omega
    · exact ih hc

theorem mkChunks_dropLast_length (P : Nat) (hP : 1 ≤ P) (l : List α) (c : List α)
    (hc : c ∈ (mkChunks P l).dropLast) : c.length = P := by
  induction l using mkChunks.induct P with
  | case1 => simp [mkChunks] at hc
  | case2 a l ih =>
    simp only [mkChunks] at hc
    rcases hd : mkChunks P (l.drop (P - 1)) with _ | ⟨r, rs⟩
    · rw [hd] at hc
      simp at hc
    · rw [hd, List.dropLast_cons_of_ne_nil (by simp)] at hc
      rcases List.mem_cons.mp hc with hc | hc
      · subst hc
        have hne : l.drop (P - 1) ≠ [] := by
          intro h0
          rw [h0] at hd
          simp [mkChunks] at hd
        have : P - 1 ≤ l.length := by
          by_contra hlt
          exact hne (List.drop_eq_nil_of_le (by omega))
        simp [List.length_take]
        omega
      · rw [← hd] at hc
        exact ih hc

theorem mkChunks_mem_mem (P : Nat) (l : List α) (c : List α) (x : α)
    (hc : c ∈ mkChunks P l) (hx : x ∈ c) : x ∈ l := by
  have : x ∈ (mkChunks P l).flatten := List.mem_flatten.mpr ⟨c, hc, hx⟩
  rwa [mkChunks_join] at this

/-- C1: for an input with N ≥ 1 route points (document order) and
pointsPerFile P ≥ 1, the chunking of lines 33-36 yields ceil(N/P)
consecutive chunks: every chunk before the last has exactly P points, every
chunk has between 1 and P points, and concatenating the chunks in order
reproduces the original point sequence with nothing duplicated or dropped. -/
theorem splitGpx_partitions_points (tree : Xml) (P : Nat)
    (hP : 1 ≤ P) (hN : 1 ≤ (Xml.allTags "rtept" tree).length) :
    ((mkChunks P (Xml.allTags "rtept" tree)).length
        = ((Xml.allTags "rtept" tree).length + P - 1) / P)
  ∧ (mkChunks P (Xml.allTags "rtept" tree)).flatten = Xml.allTags "rtept" tree
  ∧ (∀ c ∈ (mkChunks P (Xml.allTags "rtept" tree)).dropLast, c.length = P)
  ∧ (∀ c ∈ mkChunks P (Xml.allTags "rtept" tree), 1 ≤ c.length ∧ c.length ≤ P) := by
  refine ⟨mkChunks_length P hP _, mkChunks_join P _, ?_, ?_⟩
  · intro c hc
    exact mkChunks_dropLast_length P hP _ c hc
  · intro c hc
    exact mkChunks_mem_length P hP _ c hc

theorem splitGpx_partitions_points_witness :
    (1 ≤ 2 ∧ 1 ≤ (Xml.allTags "rtept" sampleTree).length) ∧
    (mkChunks 2 (Xml.allTags "rtept" sampleTree)).flatten = Xml.allTags "rtept" sampleTree :=
  ⟨⟨by decide, by decide⟩,
   (splitGpx_partitions_points sampleTree 2 (by decide) (by decide)).2.1⟩

/-! General lemmas about the document-order search and rewrite. -/

mutual
theorem setFirstTag_none_iff (tag : String) (f : Xml → Xml) :
    ∀ x : Xml, Xml.setFirstTag tag f x = none ↔ Xml.firstTag tag x = none
  | .text _ => by simp [Xml.setFirstTag, Xml.firstTag]
  | .elem t a cs => by
    simp only [Xml.setFirstTag, Xml.firstTag]
    by_cases ht : t = tag
    · simp [ht]
    · simp only [if_neg ht, Option.map_eq_none']
      exact setFirstTagList_none_iff tag f cs

theorem setFirstTagList_none_iff (tag : String) (f : Xml → Xml) :
    ∀ l : List Xml, setFirstTagList tag f l = none ↔ firstTagList tag l = none
  | [] => by simp [setFirstTagList, firstTagList]
  | c :: cs => by
    simp only [setFirstTagList, firstTagList]
    rcases hc : Xml.setFirstTag tag f c with _ | c2
    · have hg : Xml.firstTag tag c = none := (setFirstTag_none_iff tag f c).mp hc
      rw [hg]
      simp only [Option.map_eq_none']
      exact setFirstTagList_none_iff tag f cs
    · have hg : Xml.firstTag tag c ≠ none := by
        intro h0
        rw [(setFirstTag_none_iff tag f c).mpr h0] at hc
        exact Option.noConfusion hc
      rcases he : Xml.firstTag tag c with _ | e
      · exact absurd he hg
      · simp
end

mutual
theorem firstTag_tagD (tag : String) :
    ∀ (x r : Xml), Xml.firstTag tag x = some r →
      ∃ a cs, r = Xml.elem tag a cs
  | .text _, r => by simp [Xml.firstTag]
  | .elem t a cs, r => by
    simp only [Xml.firstTag]
    by_cases ht : t = tag
    · subst ht
      simp only [if_pos rfl]
      intro h
      cases h
      exact ⟨a, cs, rfl⟩
    · simp only [if_neg ht]
      exact firstTagList_tagD tag cs r

theorem firstTagList_tagD (tag : String) :
    ∀ (l : List Xml) (r : Xml), firstTagList tag l = some r →
      ∃ a cs, r = Xml.elem tag a cs
  | [], r => by simp [firstTagList]
  | c :: cs, r => by
    simp only [firstTagList]
    rcases hc : Xml.firstTag tag c with _ | e
    · exact fun h => firstTagList_tagD tag cs r h
    · intro h
      cases h
      exact firstTag_tagD tag c _ hc
end

mutual
theorem firstTag_setFirstTag (tag : String) (f : Xml → Xml)
    (hf : ∀ a cs, ∃ a2 cs2, f (Xml.elem tag a cs) = Xml.elem tag a2 cs2) :
    ∀ (x y : Xml), Xml.setFirstTag tag f x = some y →
      Xml.firstTag tag y = (Xml.firstTag tag x).map f
  | .text _, y => by simp [Xml.setFirstTag]
  | .elem t a cs, y => by
    simp only [Xml.setFirstTag, Xml.firstTag]
    by_cases ht : t = tag
    · subst ht
      simp only [if_pos rfl]
      intro hy
      cases hy
      obtain ⟨a2, cs2, hf2⟩ := hf a cs
      rw [hf2]
      simp [Xml.firstTag]
      exact hf2.symm
    · simp only [if_neg ht]
      rcases hm : setFirstTagList tag f cs with _ | cs2
      · simp
      · simp only [Option.map_some', Option.some_inj]
        intro hy
        subst hy
        simp only [Xml.firstTag, if_neg ht]
        exact firstTagList_setFirstTagList tag f hf cs cs2 hm

theorem firstTagList_setFirstTagList (tag : String) (f : Xml → Xml)
    (hf : ∀ a cs, ∃ a2 cs2, f (Xml.elem tag a cs) = Xml.elem tag a2 cs2) :
    ∀ (l l2 : List Xml), setFirstTagList tag f l = some l2 →
      firstTagList tag l2 = (firstTagList tag l).map f
  | [], l2 => by simp [setFirstTagList]
  | c :: cs, l2 => by
    simp only [setFirstTagList]
    rcases hc : Xml.setFirstTag tag f c with _ | c2
    · rcases hcs : setFirstTagList tag f cs with _ | cs2
      · simp
      · simp only [Option.map_some', Option.some_inj]
        intro hy
        subst hy
        have hg : Xml.firstTag tag c = none := (setFirstTag_none_iff tag f c).mp hc
        simp only [firstTagList, hg]
        exact firstTagList_setFirstTagList tag f hf cs cs2 hcs
    · simp only [Option.some_inj]
      intro hy
      subst hy
      have hrec := firstTag_setFirstTag tag f hf c c2 hc
      have hg : Xml.firstTag tag c ≠ none := by
        intro h0
        rw [(setFirstTag_none_iff tag f c).mpr h0] at hc
        exact Option.noConfusion hc
      rcases he : Xml.firstTag tag c with _ | e
      · exact absurd he hg
      · rw [he] at hrec
        simp only [firstTagList, hrec, Option.map_some', he]
end

theorem setFirstTag_tagD (tag : String) (f : Xml → Xml)
    (hf : ∀ a cs, ∃ a2 cs2, f (Xml.elem tag a cs) = Xml.elem tag a2 cs2)
    (x y : Xml) (h : Xml.setFirstTag tag f x = some y) : y.tagD = x.tagD := by
  cases x with
  | text s => simp [Xml.setFirstTag] at h
  | elem t a cs =>
    simp only [Xml.setFirstTag] at h
    by_cases ht : t = tag
    · subst ht
      rw [if_pos rfl] at h
      obtain ⟨a2, cs2, hf2⟩ := hf a cs
      cases h
      rw [hf2]
      rfl
    · rw [if_neg ht] at h
      rcases hm : setFirstTagList tag f cs with _ | cs2
      · rw [hm] at h
        simp at h
      · rw [hm] at h
        simp only [Option.map_some', Option.some_inj] at h
        subst h
        rfl

theorem setFirstTagList_tagDs (tag : String) (f : Xml → Xml)
    (hf : ∀ a cs, ∃ a2 cs2, f (Xml.elem tag a cs) = Xml.elem tag a2 cs2) :
    ∀ (l l2 : List Xml), setFirstTagList tag f l = some l2 →
      l2.map Xml.tagD = l.map Xml.tagD := by
  intro l
  induction l with
  | nil => intro l2 h; simp [setFirstTagList] at h
  | cons c cs ih =>
    intro l2 h
    simp only [setFirstTagList] at h
    rcases hc : Xml.setFirstTag tag f c with _ | c2
    · rw [hc] at h
      rcases hcs : setFirstTagList tag f cs with _ | cs2
      · rw [hcs] at h
        simp at h
      · rw [hcs] at h
        simp only [Option.map_some', Option.some_inj] at h
        subst h
        simp [ih cs2 hcs]
    · rw [hc] at h
      simp only [Option.some_inj] at h
      subst h
      simp [setFirstTag_tagD tag f hf c c2 hc]

theorem firstTagList_append (tag : String) (l1 l2 : List Xml) :
    firstTagList tag (l1 ++ l2) =
      match firstTagList tag l1 with
      | some r => some r
      | none => firstTagList tag l2 := by
  induction l1 with
  | nil => simp [firstTagList]
  | cons c cs ih =>
    simp only [List.cons_append, firstTagList]
    rcases hc : Xml.firstTag tag c with _ | e
    · exact ih
    · rfl

theorem innerText_setText (s : String) (x : Xml) :
    (Xml.setText s x).innerText = s := by
  cases x <;> simp [Xml.setText, Xml.innerText, innerTextList]

theorem tagD_setText (s : String) (x : Xml) :
    (Xml.setText s x).tagD = x.tagD := by
  cases x <;> rfl

theorem setText_shape (tag : String) :
    ∀ a cs, ∃ a2 cs2, Xml.setText s (Xml.elem tag a cs) = Xml.elem tag a2 cs2 :=
  fun a cs => ⟨a, [Xml.text s], rfl⟩

mutual
theorem allTags_isElem (tag : String) :
    ∀ (x r : Xml), r ∈ Xml.allTags tag x → ∃ a cs, r = Xml.elem tag a cs
  | .text _, r => by simp [Xml.allTags]
  | .elem t a cs, r => by
    simp only [Xml.allTags]
    intro hr
    rcases List.mem_append.mp hr with hr | hr
    · by_cases ht : t = tag
      · subst ht
        simp at hr
        exact ⟨a, cs, hr⟩
      · simp [if_neg ht] at hr
    · exact allTagsList_isElem tag cs r hr

theorem allTagsList_isElem (tag : String) :
    ∀ (l : List Xml) (r : Xml), r ∈ allTagsList tag l → ∃ a cs, r = Xml.elem tag a cs
  | [], r => by simp [allTagsList]
  | c :: cs, r => by
    simp only [allTagsList]
    intro hr
    rcases List.mem_append.mp hr with hr | hr
    · exact allTags_isElem tag c r hr
    · exact allTagsList_isElem tag cs r hr
end

theorem annotateType_isElem (s : String) (p : Xml) :
    (Xml.annotateType s p).isElem = p.isElem := by
  cases p with
  | text str => rfl
  | elem t a cs =>
    simp only [Xml.annotateType]
    rcases hm : setFirstTagList "type" (Xml.setText s) cs with _ | cs2 <;> rfl

theorem annotateType_firstTypeText (s : String) (p : Xml) (hp : p.isElem = true) :
    firstTypeText (Xml.annotateType s p) = some s := by
  cases p with
  | text str => simp [Xml.isElem] at hp
  | elem t a cs =>
    simp only [Xml.annotateType]
    rcases hm : setFirstTagList "type" (Xml.setText s) cs with _ | cs2
    · have hg : firstTagList "type" cs = none :=
        (setFirstTagList_none_iff "type" (Xml.setText s) cs).mp hm
      simp only [firstTypeText, Xml.childrenD]
      rw [firstTagList_append]
      rw [hg]
      simp [firstTagList, Xml.firstTag, Xml.innerText, innerTextList]
    · have hrec := firstTagList_setFirstTagList "type" (Xml.setText s)
        (setText_shape "type") cs cs2 hm
      have hg : firstTagList "type" cs ≠ none := by
        intro h0
        rw [(setFirstTagList_none_iff "type" (Xml.setText s) cs).mpr h0] at hm
        exact Option.noConfusion hm
      rcases he : firstTagList "type" cs with _ | e
      · exact absurd he hg
      · rw [he] at hrec
        simp only [firstTypeText, Xml.childrenD, hrec, Option.map_some']
        rw [innerText_setText]

theorem annotateType_hasType (s : String) (p : Xml) (hp : p.isElem = true) :
    (firstTagList "type" (Xml.annotateType s p).childrenD).isSome = true := by
  have h := annotateType_firstTypeText s p hp
  simp only [firstTypeText] at h
  rcases hm : firstTagList "type" (Xml.annotateType s p).childrenD with _ | e
  · rw [hm] at h
    simp at h
  · rfl

theorem annotateType_count_of_hasType (s : String) (p : Xml)
    (hp : (firstTagList "type" p.childrenD).isSome = true) :
    countTagChildren "type" (Xml.annotateType s p) = countTagChildren "type" p := by
  cases p with
  | text str => rfl
  | elem t a cs =>
    simp only [Xml.childrenD] at hp
    simp only [Xml.annotateType]
    rcases hm : setFirstTagList "type" (Xml.setText s) cs with _ | cs2
    · have hg : firstTagList "type" cs = none :=
        (setFirstTagList_none_iff "type" (Xml.setText s) cs).mp hm
      rw [hg] at hp
      simp at hp
    · simp only [countTagChildren, Xml.childrenD]
      rw [setFirstTagList_tagDs "type" (Xml.setText s) (setText_shape "type") cs cs2 hm]

theorem annotateType_count_le (s : String) (p : Xml) :
    countTagChildren "type" (Xml.annotateType s p) ≤ countTagChildren "type" p + 1 := by
  cases p with
  | text str => simp [Xml.annotateType, countTagChildren, Xml.childrenD]
  | elem t a cs =>
    simp only [Xml.annotateType]
    rcases hm : setFirstTagList "type" (Xml.setText s) cs with _ | cs2
    · simp only [countTagChildren, Xml.childrenD, List.map_append]
      rw [List.count_append]
      simp [Xml.tagD]
    · have h2 := setFirstTagList_tagDs "type" (Xml.setText s) (setText_shape "type") cs cs2 hm
      simp only [countTagChildren, Xml.childrenD, h2]
      omega

theorem annotatePoint_count_le (len j : Nat) (p : Xml) :
    countTagChildren "type" (annotatePoint len j p) ≤ countTagChildren "type" p + 1 := by
  simp only [annotatePoint]
  by_cases hjl : j = len - 1
  · rw [if_pos hjl]
    by_cases hj0 : j = 0
    · rw [if_pos hj0]
      cases p with
      | text str => simp [Xml.annotateType, countTagChildren, Xml.childrenD]
      | elem t a cs =>
        rw [annotateType_count_of_hasType "destination" _
          (annotateType_hasType "start" (Xml.elem t a cs) rfl)]
        exact annotateType_count_le "start" _
    · rw [if_neg hj0]
      exact annotateType_count_le "destination" p
  · rw [if_neg hjl]
    by_cases hj0 : j = 0
    · rw [if_pos hj0]
      exact annotateType_count_le "start" p
    · rw [if_neg hj0]
      omega

/-- C10 (amended): the annotation of lines 76-99 never appends a second
`type` element: a `type` child is appended only when the point has no
`type` element anywhere in its subtree; when one exists, the first `type`
descendant in document order (not necessarily a direct child) is reused
and its text overwritten, so the number of direct `type` children of a
point grows by at most one across the whole loop body. -/
theorem type_append_at_most_once (s : String) (len j : Nat) (p : Xml) :
    countTagChildren "type" (annotatePoint len j p) ≤ countTagChildren "type" p + 1
  ∧ ((firstTagList "type" p.childrenD).isSome = true →
      countTagChildren "type" (Xml.annotateType s p) = countTagChildren "type" p) :=
  ⟨annotatePoint_count_le len j p, fun h => annotateType_count_of_hasType s p h⟩

theorem type_append_at_most_once_witness :
    (firstTagList "type"
        (Xml.elem "rtept" [] [Xml.elem "type" [] [Xml.text "z"]]).childrenD).isSome = true
  ∧ countTagChildren "type"
        (Xml.annotateType "start" (Xml.elem "rtept" [] [Xml.elem "type" [] [Xml.text "z"]]))
      = countTagChildren "type" (Xml.elem "rtept" [] [Xml.elem "type" [] [Xml.text "z"]]) :=
  ⟨by rfl,
   (type_append_at_most_once "start" 2 0
      (Xml.elem "rtept" [] [Xml.elem "type" [] [Xml.text "z"]])).2 (by rfl)⟩

/-- C10 counterexample: `shadowedTypePt` has exactly one direct `type`
child, with text `y`; after the start branch that child still reads `y` —
it is not the node that was reused — while the text that was overwritten is
the `type` element nested inside `extensions`, which is first in document
order. -/
theorem type_child_reuse_counterexample :
    typeChildTexts shadowedTypePt = ["y"]
  ∧ typeChildTexts (Xml.annotateType "start" shadowedTypePt) = ["y"]
  ∧ firstTypeText (Xml.annotateType "start" shadowedTypePt) = some "start" :=
  ⟨rfl, rfl, rfl⟩

theorem annotateChunkAux_eq_nil_iff (len j : Nat) (l : List Xml) :
    annotateChunkAux len j l = [] ↔ l = [] := by
  cases l <;> simp [annotateChunkAux]

theorem annotateChunkAux_getLast (len : Nat) :
    ∀ (ps : List Xml) (j : Nat) (p : Xml),
      (annotateChunkAux len j (ps ++ [p])).getLast?
        = some (annotatePoint len (j + ps.length) p)
  | [], j, p => by simp [annotateChunkAux]
  | q :: ps, j, p => by
    simp only [List.cons_append, annotateChunkAux]
    rcases ht : annotateChunkAux len (j + 1) (ps ++ [p]) with _ | ⟨t, ts⟩
    · rw [annotateChunkAux_eq_nil_iff] at ht
      simp at ht
    · rw [List.getLast?_cons_cons, ← ht,
        annotateChunkAux_getLast len ps (j + 1) p]
      have harith : j + 1 + ps.length = j + (q :: ps).length := by
        simp
        omega
      rw [harith]

theorem annotateChunk_head (p : Xml) (ps : List Xml) :
    (annotateChunk (p :: ps)).head? = some (annotatePoint (ps.length + 1) 0 p) := by
  simp [annotateChunk, annotateChunkAux]

theorem annotatePoint_first (len : Nat) (p : Xml) (h : 2 ≤ len) :
    annotatePoint len 0 p = Xml.annotateType "start" p := by
  unfold annotatePoint
  rw [if_neg (by omega), if_pos rfl]

theorem annotatePoint_last (len j : Nat) (p : Xml) (hj : j = len - 1) (h0 : j ≠ 0) :
    annotatePoint len j p = Xml.annotateType "destination" p := by
  unfold annotatePoint
  rw [if_pos hj, if_neg h0]

theorem annotatePoint_single (len j : Nat) (p : Xml) (hj : j = len - 1) (h0 : j = 0) :
    annotatePoint len j p
      = Xml.annotateType "destination" (Xml.annotateType "start" p) := by
  unfold annotatePoint
  rw [if_pos hj, if_pos h0]

/-- C2 (amended): for every chunk produced by the splitter, the first point
of the chunk ends up with its first `type` descendant (document order)
reading `start`, and the last point with its first `type` descendant
reading `destination`; a new `type` child is created only when the point
has no `type` element anywhere in its subtree.  For a single-point chunk
the effective first `type` descendant reads `destination`, because the
destination branch runs after the start branch. -/
theorem chunk_type_descendant_labels (tree : Xml) (P : Nat) (c : List Xml)
    (hP : 1 ≤ P) (hc : c ∈ mkChunks P (Xml.allTags "rtept" tree)) :
    (2 ≤ c.length → (annotateChunk c).head?.map firstTypeText = some (some "start"))
  ∧ (annotateChunk c).getLast?.map firstTypeText = some (some "destination")
  ∧ (c.length = 1 →
      (annotateChunk c).head?.map firstTypeText = some (some "destination")) := by
  have hmem : ∀ x ∈ c, x.isElem = true := by
    intro x hx
    obtain ⟨a, cs, hshape⟩ :=
      allTags_isElem "rtept" tree x (mkChunks_mem_mem P _ c x hc hx)
    subst hshape
    rfl
  have hlen := mkChunks_mem_length P hP _ c hc
  refine ⟨?_, ?_, ?_⟩
  · intro h2
    rcases c with _ | ⟨p, ps⟩
    · simp at h2
    · rw [annotateChunk_head]
      simp only [Option.map_some', Option.some_inj]
      rw [annotatePoint_first (ps.length + 1) p (by simpa using h2)]
      exact annotateType_firstTypeText "start" p (hmem p (by simp))
  · rcases List.eq_nil_or_concat c with hnil | ⟨ps, q, hq⟩
    · subst hnil
      simp at hlen
    · rw [List.concat_eq_append] at hq
      have hq' : q ∈ c := by
        subst hq
        simp
      have hql : (annotateChunk c).getLast?
          = some (annotatePoint c.length (0 + ps.length) q) := by
        have hgl := annotateChunkAux_getLast c.length ps 0 q
        rw [← hq] at hgl
        rw [annotateChunk]
        exact hgl
      rw [hql]
      simp only [Option.map_some', Option.some_inj, Nat.zero_add]
      have hcl : c.length = ps.length + 1 := by
        rw [hq]
        simp
      by_cases h0 : ps.length = 0
      · rw [annotatePoint_single c.length ps.length q (by omega) h0]
        refine annotateType_firstTypeText "destination" _ ?_
        rw [annotateType_isElem]
        exact hmem q hq'
      · rw [annotatePoint_last c.length ps.length q (by omega) h0]
        exact annotateType_firstTypeText "destination" q (hmem q hq')
  · intro h1
    rcases c with _ | ⟨p, ps⟩
    · simp at h1
    · have hps : ps = [] := by
        simp only [List.length_cons] at h1
        exact List.length_eq_zero.mp (by omega)
      subst hps
      rw [annotateChunk_head]
      simp only [Option.map_some', Option.some_inj, List.length_nil]
      rw [annotatePoint_single 1 0 p (by omega) rfl]
      refine annotateType_firstTypeText "destination" _ ?_
      rw [annotateType_isElem]
      exact hmem p (by simp)

theorem chunk_type_descendant_labels_witness :
    ((1 : Nat) ≤ 2 ∧ [pt "1", pt "2"] ∈ mkChunks 2 (Xml.allTags "rtept" sampleTree)) ∧
    (annotateChunk [pt "1", pt "2"]).getLast?.map firstTypeText
      = some (some "destination") :=
  ⟨⟨by decide, by simp [mkChunks, Xml.allTags, allTagsList, sampleTree, pt]⟩,
   (chunk_type_descendant_labels sampleTree 2 [pt "1", pt "2"] (by decide)
      (by simp [mkChunks, Xml.allTags, allTagsList, sampleTree, pt])).2.1⟩

/-- C2 counterexample: on `nestedTypeTree` with pointsPerFile 50 the one
chunk produced is `[nestedTypePt, pt "6"]`, and in the written output file
the first point of the chunk has no direct `type` child at all — in
particular none reading `start` — because line 79 found the `type` element
nested inside `extensions` and overwrote that instead of creating or
overwriting a `type` child. -/
theorem chunk_type_child_counterexample :
    mkChunks 50 (Xml.allTags "rtept" nestedTypeTree) = [[nestedTypePt, pt "6"]]
  ∧ ((splitGpxModel nestedTypeTree "t" 50).files.map
       (fun f => (Xml.firstTag "rte" f.2).map (fun r => r.childrenD.map typeChildTexts)))
      = [some [[], ["destination"]]] := by
  have h1 : mkChunks 50 (Xml.allTags "rtept" nestedTypeTree)
      = [[nestedTypePt, pt "6"]] := by
    simp [mkChunks, Xml.allTags, allTagsList, nestedTypeTree, nestedTypePt, pt]
  refine ⟨h1, ?_⟩
  simp only [splitGpxModel, h1]
  rfl

/-- C7: an input that parses but has zero `rtept` elements is logged and
skipped before the output subdirectory is created (lines 27-30 precede
lines 42-44): no subdirectory, no output files, and not an error. -/
theorem no_points_skips_file (tree : Xml) (b : String) (P : Nat)
    (h : Xml.allTags "rtept" tree = []) :
    splitGpxModel tree b P = { dirCreated := false, files := [], errored := false } := by
  simp [splitGpxModel, h]

theorem no_points_skips_file_witness :
    Xml.allTags "rtept" noPtsTree = []
  ∧ splitGpxModel noPtsTree "t" 50
      = { dirCreated := false, files := [], errored := false } :=
  ⟨rfl, no_points_skips_file noPtsTree "t" 50 rfl⟩

/-- C4 (amended): the script renames the document's first `name` element in
document order, not `metadata/name` as such.  Hence (i) when `metadata` is
the document's first child and its `name` its first child — so that
`metadata/name` is the first `name` of the document, as in schema-shaped
GPX — the output's `metadata/name` reads `{baseName} (Part {k})`; and
(ii) whenever the `rte` located by line 59 has a `name` descendant (in
particular a `name` child), the `name` child of the output's `rte` reads
`{baseName} (Part {k})`. -/
theorem part_name_first_name_updated
    (ga ma na : List (String × String)) (s b : String) (k : Nat)
    (mrest rest chunk : List Xml) (out : Xml)
    (hbuild : buildChunkDoc (gpxDoc ga ma na s mrest rest) b k chunk = some out) :
    metadataNameText out = some (partName b k)
  ∧ (∀ (tree out2 rte : Xml),
      buildChunkDoc tree b k chunk = some out2 →
      Xml.firstTag "rte" (metaRenamed tree b k) = some rte →
      (firstTagList "name" rte.childrenD).isSome = true →
      rteNameText out2 = some (partName b k)) := by
  constructor
  · have hmr : metaRenamed (gpxDoc ga ma na s mrest rest) b k
        = gpxDoc ga ma na (partName b k) mrest rest := by
      simp [metaRenamed, gpxDoc, Xml.setFirstTag, setFirstTagList, Xml.setText]
    rcases hrr : rebuiltRte (gpxDoc ga ma na s mrest rest) b k chunk with _ | nr
    · simp only [buildChunkDoc, hrr] at hbuild
      exact absurd hbuild (by simp)
    · simp only [buildChunkDoc, hrr, hmr] at hbuild
      simp only [gpxDoc, Xml.setFirstTag, setFirstTagList] at hbuild
      simp only [show ("gpx" = "rte") = False from by simp,
        show ("metadata" = "rte") = False from by simp,
        show ("name" = "rte") = False from by simp,
        if_false, eq_iff_iff, iff_false] at hbuild
      rcases hm2 : setFirstTagList "rte" (fun _ => nr) mrest with _ | mrest2 <;>
        rw [hm2] at hbuild
      · rcases hm3 : setFirstTagList "rte" (fun _ => nr) rest with _ | rest2 <;>
          rw [hm3] at hbuild
        · simp at hbuild
        · simp only [Option.map_none', Option.map_some', Option.some_inj] at hbuild
          subst hbuild
          simp [metadataNameText, Xml.firstTag, firstTagList, firstChildTag,
            Xml.childrenD, Xml.tagD, Xml.innerText, innerTextList]
      · simp only [Option.map_none', Option.map_some', Option.some_inj] at hbuild
        subst hbuild
        simp [metadataNameText, Xml.firstTag, firstTagList, firstChildTag,
          Xml.childrenD, Xml.tagD, Xml.innerText, innerTextList]
  · intro tree out2 rte hb hr hname
    obtain ⟨ra, rcs, hrsh⟩ := firstTag_tagD "rte" _ rte hr
    subst hrsh
    rcases hn : firstTagList "name" (Xml.elem "rte" ra rcs).childrenD with _ | n
    · rw [hn] at hname
      simp at hname
    · obtain ⟨na', ncs', hnsh⟩ := firstTagList_tagD "name" _ n hn
      subst hnsh
      have hrr : rebuiltRte tree b k chunk
          = some (Xml.elem "rte" ra
              ([Xml.elem "name" na' [Xml.text (partName b k)]] ++ annotateChunk chunk)) := by
        simp only [rebuiltRte, hr, Option.map_some', hn]
        rfl
      simp only [buildChunkDoc, hrr] at hb
      have hget := firstTag_setFirstTag "rte"
        (fun _ => Xml.elem "rte" ra
          ([Xml.elem "name" na' [Xml.text (partName b k)]] ++ annotateChunk chunk))
        (fun a cs => ⟨ra, _, rfl⟩) (metaRenamed tree b k) out2 hb
      rw [hr] at hget
      simp only [Option.map_some'] at hget
      simp only [rteNameText, hget, Option.bind_some, firstChildTag,
        Xml.childrenD, List.singleton_append, List.find?_cons]
      simp [Xml.tagD, Xml.innerText, innerTextList]

theorem part_name_first_name_updated_witness :
    ∃ out, buildChunkDoc sampleTree "Trip" 1 [pt "1", pt "2"] = some out
      ∧ metadataNameText out = some (partName "Trip" 1) := by
  refine ⟨(buildChunkDoc sampleTree "Trip" 1 [pt "1", pt "2"]).getD (Xml.text ""), rfl, ?_⟩
  exact (part_name_first_name_updated [] [] [] "Trip" "Trip" 1 []
    [Xml.elem "rte" [] [Xml.elem "name" [] [Xml.text "Trip"], pt "1", pt "2", pt "3"]]
    [pt "1", pt "2"] _ rfl).1

/-- C4 counterexample: `authorNameTree` contains a `metadata/name` element
(text `M`), but the only output file's `metadata/name` still reads `M`
rather than `trip (Part 1)`: line 54 renamed the document's first `name`
element, which here is `metadata/author/name`. -/
theorem part_name_metadata_counterexample :
    metadataNameText authorNameTree = some "M"
  ∧ ((splitGpxModel authorNameTree "trip" 50).files.map (fun f => metadataNameText f.2))
      = [some "M"]
  ∧ partName "trip" 1 = "trip (Part 1)" := by
  have h1 : mkChunks 50 (Xml.allTags "rtept" authorNameTree) = [[pt "7"]] := by
    simp [mkChunks, Xml.allTags, allTagsList, authorNameTree, pt]
  refine ⟨rfl, ?_, by decide⟩
  simp only [splitGpxModel, h1]
  rfl

theorem annotateChunkAux_length (len : Nat) :
    ∀ (j : Nat) (l : List Xml), (annotateChunkAux len j l).length = l.length
  | _, [] => rfl
  | j, p :: ps => by
    simp only [annotateChunkAux, List.length_cons]
    rw [annotateChunkAux_length len (j + 1) ps]

theorem annotateChunk_length (c : List Xml) : (annotateChunk c).length = c.length :=
  annotateChunkAux_length c.length 0 c

theorem mkChunks_ne_nil_eq (P : Nat) (hP : 1 ≤ P) (l : List α) (hl : l ≠ []) :
    mkChunks P l = l.take P :: mkChunks P (l.drop P) := by
  rcases l with _ | ⟨a, l⟩
  · exact absurd rfl hl
  · exact mkChunks_cons_eq P hP a l

theorem seqProcess_eq_chunkDocsGo (tree : Xml) (b : String) (P : Nat) (hP : 1 ≤ P) :
    ∀ (n k : Nat) (store rest : List Xml),
      store.drop (k * P) = rest →
      n = (mkChunks P rest).length →
      seqProcess tree b P k n store = chunkDocsGo tree b k (mkChunks P rest) := by
  intro n
  induction n with
  | zero =>
    intro k store rest hs hn
    have hz : mkChunks P rest = [] := List.length_eq_zero.mp hn.symm
    rw [hz]
    rfl
  | succ n ih =>
    intro k store rest hs hn
    have hrest : rest ≠ [] := by
      intro h0
      subst h0
      simp [mkChunks] at hn
    have hkP : k * P < store.length := by
      by_contra hle
      push_neg at hle
      have hdrop : store.drop (k * P) = [] := List.drop_eq_nil_iff.mpr hle
      rw [hs] at hdrop
      exact hrest hdrop
    have hstorelen : store.length = k * P + rest.length := by
      have := congrArg List.length hs
      simp [List.length_drop] at this
      omega
    rw [mkChunks_ne_nil_eq P hP rest hrest] at hn ⊢
    simp only [List.length_cons] at hn
    simp only [seqProcess, chunkDocsGo]
    rw [hs]
    congr 1
    have hkp1 : (k + 1) * P = k * P + P := by ring
    have hlenA : (store.take (k * P)).length = k * P := by
      simp [List.length_take]
      omega
    have hlenB : (annotateChunk (rest.take P)).length = (rest.take P).length :=
      annotateChunk_length _
    by_cases hPr : P ≤ rest.length
    · have hcl : (rest.take P).length = P := by
        simp [List.length_take]
        omega
      refine ih (k + 1) _ (rest.drop P) ?_ (by omega)
      have h1 : (k + 1) * P
          = (store.take (k * P) ++ annotateChunk (rest.take P)).length + 0 := by
        simp [hlenA, hlenB, hcl]
        omega
      rw [h1, List.drop_append, List.drop_zero, hcl]
      rw [← List.drop_drop, hs]
    · push_neg at hPr
      have hcl : (rest.take P).length = rest.length := by
        simp [List.length_take]
        omega
      refine ih (k + 1) _ (rest.drop P) ?_ (by omega)
      have hrd : rest.drop P = [] := List.drop_eq_nil_iff.mpr (by omega)
      rw [hrd]
      refine List.drop_eq_nil_iff.mpr ?_
      simp only [List.length_append, hlenA, hlenB, hcl, List.length_drop]
      omega

/-- C6: the outputs are isolated per chunk.  `seqProcess` runs the chunk
loop as the script does — the shared store of original route-point nodes is
mutated in place by each chunk's start/destination annotations before the
chunk's output file is built — while `chunkDocsGo` builds every output file
independently from the pristine parsed document (line 51 re-parses the
original text for each chunk).  The two agree: the edits made while
producing output file k never change the content of any other chunk's
output file, because the chunks are disjoint slices of the point list and
all other edits happen on the chunk's own fresh parse. -/
theorem chunk_edits_isolated (tree : Xml) (b : String) (P : Nat) (hP : 1 ≤ P) :
    seqProcess tree b P 0 ((mkChunks P (Xml.allTags "rtept" tree)).length)
        (Xml.allTags "rtept" tree)
      = chunkDocsGo tree b 0 (mkChunks P (Xml.allTags "rtept" tree)) := by
  have h0 : (Xml.allTags "rtept" tree).drop (0 * P) = Xml.allTags "rtept" tree := by
    simp
  exact seqProcess_eq_chunkDocsGo tree b P hP _ 0 _ _ h0 rfl

theorem chunk_edits_isolated_witness :
    (1 : Nat) ≤ 2
  ∧ seqProcess sampleTree "Trip" 2 0
        ((mkChunks 2 (Xml.allTags "rtept" sampleTree)).length)
        (Xml.allTags "rtept" sampleTree)
      = chunkDocsGo sampleTree "Trip" 0 (mkChunks 2 (Xml.allTags "rtept" sampleTree)) :=
  ⟨by decide, chunk_edits_isolated sampleTree "Trip" 2 (by decide)⟩

theorem splitLoopRun_eq (pts : List α) (P : Nat) (hP : 1 ≤ P) :
    ∀ (fuel i : Nat) (acc : List (List α)),
      pts.length - i + 1 ≤ fuel →
      splitLoopRun pts P fuel i acc = some (acc ++ mkChunks P (pts.drop i)) := by
  intro fuel
  induction fuel with
  | zero => intro i acc h; omega
  | succ fuel ih =>
    intro i acc h
    simp only [splitLoopRun]
    by_cases hi : i < pts.length
    · rw [if_pos hi]
      rw [ih (i + P) (acc ++ [(pts.drop i).take P]) (by omega)]
      have hne : pts.drop i ≠ [] := by
        intro h0
        have := List.drop_eq_nil_iff.mp h0
        omega
      rw [mkChunks_ne_nil_eq P hP (pts.drop i) hne]
      rw [List.drop_drop]
      simp
    · rw [if_neg hi]
      have hdrop : pts.drop i = [] := List.drop_eq_nil_iff.mpr (by omega)
      rw [hdrop]
      simp [mkChunks]

/-- C9 (implicit): the chunking loop of lines 33-36 is total exactly when
`pointsPerFile ≥ 1`.  With `P ≥ 1` the literal loop — run with a budget of
`N + 1` guard tests — exits and accumulates precisely `mkChunks P pts`, and
each iteration advances the index by exactly `P`, strictly increasing it.
With `pointsPerFile ≤ 0` an iteration never increases the index
(`loopNext` yields `i + Q ≤ i`), and on any input with at least one route
point the loop never exits, whatever the budget. -/
theorem chunk_loop_termination (pts : List α) (P : Nat) (hP : 1 ≤ P)
    (N : Nat) (Q : Int) (hQ : Q ≤ 0) (hN : 1 ≤ N) :
    splitLoopRun pts P (pts.length + 1) 0 [] = some (mkChunks P pts)
  ∧ (∀ i j : Int, loopNext N (P : Int) i = some j → i < j)
  ∧ (∀ i j : Int, loopNext N Q i = some j → j ≤ i)
  ∧ ∀ fuel, loopExitsWithin N Q fuel 0 = false := by
  refine ⟨?_, ?_, ?_, ?_⟩
  · have := splitLoopRun_eq pts P hP (pts.length + 1) 0 [] (by omega)
    simpa using this
  · intro i j hij
    simp only [loopNext] at hij
    by_cases hiN : i < (N : Int)
    · rw [if_pos hiN] at hij
      have hj : j = i + (P : Int) := by
        cases hij
        rfl
      have hPi : (1 : Int) ≤ (P : Int) := by exact_mod_cast hP
      omega
    · rw [if_neg hiN] at hij
      exact absurd hij (by simp)
  · intro i j hij
    simp only [loopNext] at hij
    by_cases hiN : i < (N : Int)
    · rw [if_pos hiN] at hij
      have hj : j = i + Q := by
        cases hij
        rfl
      omega
    · rw [if_neg hiN] at hij
      exact absurd hij (by simp)
  · have key : ∀ (fuel : Nat) (i : Int), i ≤ 0 → loopExitsWithin N Q fuel i = false := by
      intro fuel
      induction fuel with
      | zero =>
        intro i hi
        simp only [loopExitsWithin, decide_eq_false_iff_not, Decidable.not_not]
        omega
      | succ fuel ih =>
        intro i hi
        simp only [loopExitsWithin]
        rw [if_pos (by omega)]
        exact ih (i + Q) (by omega)
    intro fuel
    exact key fuel 0 (by omega)

theorem chunk_loop_termination_witness :
    ((1 : Nat) ≤ 2 ∧ (0 : Int) ≤ 0 ∧ (1 : Nat) ≤ 1)
  ∧ splitLoopRun [10, 20, 30] 2 4 0 [] = some (mkChunks 2 [10, 20, 30]) :=
  ⟨⟨by decide, by decide, by decide⟩,
   (chunk_loop_termination [10, 20, 30] 2 (by decide) 1 0 (by decide) (by decide)).1⟩

theorem range_map_saved_shift (i k n : Nat) :
    List.map (fun j => Ev.fileSaved i (k + j)) (List.range (n + 1))
      = Ev.fileSaved i k :: List.map (fun j => Ev.fileSaved i (k + 1 + j)) (List.range n) := by
  rw [List.range_succ_eq_map]
  simp only [List.map_cons, Nat.add_zero, List.map_map]
  congr 1
  refine List.map_congr_left ?_
  intro j hj
  simp only [Function.comp_apply]
  congr 1
  omega

theorem savedSegs_flatten (i : Nat) :
    ∀ (n k : Nat), 1 ≤ n →
      (savedSegs i k n).flatten
        = (List.range n).map (fun j => Ev.fileSaved i (k + j)) ++ [Ev.procFinish i]
  | 0, k, h => by omega
  | 1, k, h => by
    rw [show (List.range 1) = [0] from rfl]
    simp [savedSegs]
  | n + 2, k, h => by
    simp only [savedSegs, List.flatten_cons]
    rw [savedSegs_flatten i (n + 1) (k + 1) (by omega)]
    rw [show n + 2 = (n + 1) + 1 from rfl, range_map_saved_shift i k (n + 1)]
    simp

theorem runQueue_mem :
    ∀ (q : List (List (List Ev))) (t : List (List Ev)) (seg : List Ev) (e : Ev),
      t ∈ q → seg ∈ t → e ∈ seg → e ∈ runQueue q := by
  intro q
  induction q using runQueue.induct with
  | case1 =>
    intro t seg e ht hs he
    simp at ht
  | case2 q ih =>
    intro t seg e ht hs he
    simp only [runQueue]
    rcases List.mem_cons.mp ht with rfl | ht2
    · simp at hs
    · exact ih t seg e ht2 hs he
  | case3 seg0 q ih =>
    intro t seg e ht hs he
    simp only [runQueue]
    rcases List.mem_cons.mp ht with rfl | ht2
    · rcases List.mem_cons.mp hs with rfl | h0
      · exact List.mem_append_left _ he
      · simp at h0
    · exact List.mem_append_right _ (ih t seg e ht2 hs he)
  | case4 seg0 q r rs ih =>
    intro t seg e ht hs he
    simp only [runQueue]
    rcases List.mem_cons.mp ht with rfl | ht2
    · rcases List.mem_cons.mp hs with rfl | h0
      · exact List.mem_append_left _ he
      · refine List.mem_append_right _ (ih (r :: rs) seg e ?_ h0 he)
        exact List.mem_append_right _ (by simp)
    · exact List.mem_append_right _ (ih t seg e (List.mem_append_left _ ht2) hs he)

theorem startAll_task_mem (b : String) (P : Nat) :
    ∀ (files : List Xml) (i0 j : Nat) (tree : Xml),
      files[j]? = some tree →
      (Xml.allTags "rtept" tree).isEmpty = false →
      contSegments (i0 + j) tree b P ∈ (startAll b P i0 files).2
  | [], i0, j, tree => by
    intro hj hpts
    simp at hj
  | t :: ts, i0, 0, tree => by
    intro hj hpts
    simp only [List.getElem?_cons_zero, Option.some_inj] at hj
    subst hj
    simp only [startAll, splitTask]
    rw [if_neg (by simp [hpts])]
    simp
  | t :: ts, i0, j + 1, tree => by
    intro hj hpts
    simp only [List.getElem?_cons_succ] at hj
    have hrec := startAll_task_mem b P ts (i0 + 1) j tree hj hpts
    simp only [startAll]
    have harith : i0 + (j + 1) = (i0 + 1) + j := by omega
    rw [harith]
    exact List.mem_append_right _ hrec

theorem processTrace_mem (files : List Xml) (b : String) (P : Nat)
    (j : Nat) (tree : Xml) (hj : files[j]? = some tree)
    (hpts : (Xml.allTags "rtept" tree).isEmpty = false)
    (seg : List Ev) (e : Ev)
    (hs : seg ∈ contSegments j tree b P) (he : e ∈ seg) :
    e ∈ processTrace files b P := by
  have hne : files ≠ [] := by
    intro h0
    subst h0
    simp at hj
  simp only [processTrace]
  rw [if_neg (by simp [hne])]
  refine List.mem_append_right _ ?_
  refine runQueue_mem _ (contSegments j tree b P) seg e ?_ hs he
  refine List.mem_append_left _ ?_
  have hmem := startAll_task_mem b P files 0 j tree hj hpts
  simpa using hmem

/-- C3: per-file isolation in the batch.  Whatever the other entries of the
batch do — parse to nothing, lack an `rte` (their task dies with an error),
or anything else — a file that splits successfully still has every one of
its output-file writes and its completion log in the run's event trace:
each `splitGpx` call runs as its own task and no failure is propagated to
the siblings (the map callback at line 140 returns nothing and `Promise.all`
never sees the per-file promises). -/
theorem batch_failure_isolation (files : List Xml) (b : String) (P : Nat)
    (i : Nat) (tree : Xml) (hP : 1 ≤ P)
    (hi : files[i]? = some tree)
    (hpts : (Xml.allTags "rtept" tree).isEmpty = false)
    (hrte : (buildChunkDoc tree b 1
        ((mkChunks P (Xml.allTags "rtept" tree)).headD [])).isSome = true) :
    (∀ k, 1 ≤ k → k ≤ (mkChunks P (Xml.allTags "rtept" tree)).length →
        Ev.fileSaved i k ∈ mainTrace files b P)
  ∧ Ev.procFinish i ∈ mainTrace files b P := by
  have hne : Xml.allTags "rtept" tree ≠ [] := by
    intro h0
    rw [h0] at hpts
    simp at hpts
  rcases hch : mkChunks P (Xml.allTags "rtept" tree) with _ | ⟨c, cs⟩
  · exact absurd ((mkChunks_eq_nil_iff P _).mp hch) hne
  · rw [hch] at hrte
    simp only [List.headD_cons] at hrte
    have hcont : contSegments i tree b P = [] :: savedSegs i 1 (c :: cs).length := by
      simp only [contSegments, hch]
      rw [if_pos hrte]
    have hflat := savedSegs_flatten i (c :: cs).length 1 (by simp)
    constructor
    · intro k hk1 hk2
      have hmemflat : Ev.fileSaved i k ∈ (savedSegs i 1 (c :: cs).length).flatten := by
        rw [hflat]
        refine List.mem_append_left _ ?_
        refine List.mem_map.mpr ⟨k - 1, List.mem_range.mpr (by simp at hk2 ⊢; omega), ?_⟩
        congr 1
        omega
      obtain ⟨seg, hseg, he⟩ := List.mem_flatten.mp hmemflat
      have hsegcont : seg ∈ contSegments i tree b P := by
        rw [hcont]
        exact List.mem_cons_of_mem _ hseg
      simp only [mainTrace]
      exact List.mem_cons_of_mem _
        (processTrace_mem files b P i tree hi hpts seg _ hsegcont he)
    · have hmemflat : Ev.procFinish i ∈ (savedSegs i 1 (c :: cs).length).flatten := by
        rw [hflat]
        exact List.mem_append_right _ (by simp)
      obtain ⟨seg, hseg, he⟩ := List.mem_flatten.mp hmemflat
      have hsegcont : seg ∈ contSegments i tree b P := by
        rw [hcont]
        exact List.mem_cons_of_mem _ hseg
      simp only [mainTrace]
      exact List.mem_cons_of_mem _
        (processTrace_mem files b P i tree hi hpts seg _ hsegcont he)

theorem batch_failure_isolation_witness :
    ([noRteTree, oneChunkTree][1]? = some oneChunkTree)
  ∧ Ev.procFinish 1 ∈ mainTrace [noRteTree, oneChunkTree] "t" 1 := by
  have h1 : mkChunks 1 (Xml.allTags "rtept" oneChunkTree) = [[pt "1"]] := by
    simp [mkChunks, Xml.allTags, allTagsList, oneChunkTree, pt]
  refine ⟨rfl, ?_⟩
  refine (batch_failure_isolation [noRteTree, oneChunkTree] "t" 1 1 oneChunkTree
    (by decide) rfl rfl ?_).2
  rw [h1]
  rfl

/-- C5 (bug evidence): on a batch of one file with a single route point the
full event trace is computed: the final "All GPX files processed." log
comes before the output file is written and before the per-file completion
log.  The map callback `(gpxFile) => { splitGpx(...) }` at lines 139-141
returns `undefined`, so `await Promise.all([...])` resolves as soon as the
microtask queue reaches it, while every `splitGpx` is still suspended at
its first `await`. -/
theorem allDone_logged_before_processing :
    mainTrace [oneChunkTree] "t" 1
      = [Ev.dirCleared, Ev.procStart 0, Ev.allDone, Ev.fileSaved 0 1, Ev.procFinish 0] := by
  have h1 : mkChunks 1 (Xml.allTags "rtept" oneChunkTree) = [[pt "1"]] := by
    simp [mkChunks, Xml.allTags, allTagsList, oneChunkTree, pt]
  simp only [mainTrace, processTrace, startAll, splitTask, contSegments, h1]
  simp +decide [savedSegs, runQueue, oneChunkTree, pt]

/-- C8: the output-directory reset is a barrier.  The main IIFE awaits
`clearDirectory(outputDir)` to completion (line 164) before calling
`processGpxFiles` (line 166), so in every run's trace the reset event is
first and every output-file write comes strictly after it. -/
theorem wipe_precedes_writes (files : List Xml) (b : String) (P : Nat) :
    (mainTrace files b P).head? = some Ev.dirCleared
  ∧ ∀ (j f k : Nat), (mainTrace files b P)[j]? = some (Ev.fileSaved f k) → 0 < j := by
  constructor
  · rfl
  · intro j f k hj
    cases j with
    | zero =>
      simp only [mainTrace, List.getElem?_cons_zero, Option.some_inj] at hj
      exact absurd hj (by simp)
    | succ j => omega

theorem wipe_precedes_writes_witness :
    ((mainTrace [oneChunkTree] "t" 1)[3]? = some (Ev.fileSaved 0 1)) ∧ 0 < 3 := by
  have ht : (mainTrace [oneChunkTree] "t" 1)[3]? = some (Ev.fileSaved 0 1) := by
    have h1 : mkChunks 1 (Xml.allTags "rtept" oneChunkTree) = [[pt "1"]] := by
      simp [mkChunks, Xml.allTags, allTagsList, oneChunkTree, pt]
    simp only [mainTrace, processTrace, startAll, splitTask, contSegments, h1]
    simp +decide [savedSegs, runQueue, oneChunkTree, pt]
  exact ⟨ht, (wipe_precedes_writes [oneChunkTree] "t" 1).2 3 0 1 ht⟩
